import Mathlib

/-!
A shallow embedding of `advanced-vector/vector.h`: the raw-storage owner
`RawMemory<T>` and the sequence container `Vector<T>` built on top of it.

Blocks of raw storage are modelled as lists of slots, where a slot is
`none` (uninitialized or destroyed storage) or `some x` (a live object
holding the value `x`).  A `Vector<T>` is its block together with the
live-element count `size_`.  The standard uninitialized-memory algorithms
(`uninitialized_copy_n`, `uninitialized_move_n`, `destroy_n`, `copy_n`,
`move_backward`, ...) are modelled by their effect on the slot list, via
the range-write primitive `writeAt`.

Exception behaviour of a throwing element type is modelled by a copy
budget: a probe type whose copy constructor succeeds `fuel` times and
throws on the next copy.  Operations that contain element copies are also
given budgeted variants returning `Except`; the error value records the
state the code leaves behind when the exception propagates.
-/

namespace AdvVec

/-! ### RawMemory -/

/-- `RawMemory<T>`: an allocation handle (`none` models `nullptr`, `some id`
models a pointer to block number `id`) and the slot capacity. -/
structure RawMemory where
  buffer : Option Nat
  capacity : Nat
deriving DecidableEq

/-- `Swap`: exchanges handle and capacity of the two objects, returning
`(this after, other after)`. -/
def RawMemory.swap (a b : RawMemory) : RawMemory × RawMemory := (b, a)

/-- Move construction `RawMemory(RawMemory&& other)`: the members are
default-initialized (`buffer_ = nullptr`, `capacity_ = 0`), then
`Swap(other)`.  Returns `(constructed object, other after)`. -/
def RawMemory.moveCtor (other : RawMemory) : RawMemory × RawMemory :=
  RawMemory.swap ⟨none, 0⟩ other

/-- Move assignment `operator=(RawMemory&& rhs)` for `this != &rhs`:
`Deallocate(buffer_)` frees this object's block (the member fields are not
changed by it), then `Swap(rhs)` exchanges the fields.  Returns
`(this after, rhs after, handles deallocated during the call)`. -/
def RawMemory.moveAssign (this rhs : RawMemory) : RawMemory × RawMemory × List (Option Nat) :=
  let freed := [this.buffer]
  let s := RawMemory.swap this rhs
  (s.1, s.2, freed)

/-- The destructor `~RawMemory()`: returns the handle it deallocates. -/
def RawMemory.dtorFrees (a : RawMemory) : Option Nat := a.buffer

/-! ### Slots and block primitives -/

/-- A slot of element-sized raw storage: `none` is uninitialized/destroyed
storage, `some x` is a live object. -/
abbrev Slot (α : Type) := Option α

/-- A freshly allocated block of `n` uninitialized slots
(`RawMemory<T> new_data(n)`). -/
def rawBlock (α : Type) (n : Nat) : List (Slot α) := List.replicate n none

/-- Write the slot values `xs` into positions `[i, i + xs.length)` of the
block `l`: the net effect of `copy_n` / `uninitialized_copy_n` /
`uninitialized_move_n` / `move_backward` landing at offset `i`. -/
def writeAt (l : List (Slot α)) (i : Nat) (xs : List (Slot α)) : List (Slot α) :=
  l.take i ++ xs ++ l.drop (i + xs.length)

/-- `destroy_n(l + i, n)`: slots `[i, i + n)` become raw storage. -/
def destroyAt (l : List (Slot α)) (i n : Nat) : List (Slot α) :=
  writeAt l i (List.replicate n none)

/-! ### The move-or-copy relocation rule -/

/-- The compile-time facts about the element type that the container
inspects: `std::is_nothrow_move_constructible_v<T>` and
`std::is_copy_constructible_v<T>`. -/
structure Traits where
  nothrowMove : Bool
  hasCopy : Bool

inductive RelocMode | move | copy
deriving DecidableEq

/-- The `if constexpr (std::is_nothrow_move_constructible_v<T> ||
!std::is_copy_constructible_v<T>)` selector shared by `Reserve`,
`EmplaceBack`, `Emplace` and `Erase`. -/
def relocMode (tr : Traits) : RelocMode :=
  if tr.nothrowMove || !tr.hasCopy then .move else .copy

/-- Relocation of the live values `src` into the block `dst` at offset `i`.
`.move` models `uninitialized_move_n` (the moved-from sources stay
constructed and are destroyed with the old block), `.copy` models
`uninitialized_copy_n`; the values placed in the destination coincide.
The failure behaviour of the copying mode is modelled separately by the
budgeted variants below. -/
def relocate (mode : RelocMode) (dst : List (Slot α)) (i : Nat) (src : List (Slot α)) :
    List (Slot α) :=
  match mode with
  | .move => writeAt dst i src
  | .copy => writeAt dst i src

/-! ### Vector -/

/-- `Vector<T>`: the owned block (`data_`, of length `Capacity()`) and the
live count `size_`. -/
structure Vec (α : Type) where
  slots : List (Slot α)
  size : Nat
deriving DecidableEq

/-- `Capacity()`: the length of the owned block. -/
def Vec.cap (v : Vec α) : Nat := v.slots.length

/-- The live element sequence, read from slots `[0, size)`. -/
def Vec.elems (v : Vec α) : List α := (v.slots.take v.size).filterMap id

/-- `Vector()`: empty, capacity 0. -/
def Vec.empty (α : Type) : Vec α := ⟨[], 0⟩

/-- `Vector(size)`: allocate exactly `n` slots and default-construct each
(`uninitialized_value_construct_n`); a default-constructed element has
value `d`. -/
def Vec.mkVec (d : α) (n : Nat) : Vec α :=
  ⟨writeAt (rawBlock α n) 0 (List.replicate n (some d)), n⟩

/-- Copy construction: allocate exactly `other.size_` slots and
`uninitialized_copy_n` every live element. -/
def Vec.copyCtor (o : Vec α) : Vec α :=
  ⟨writeAt (rawBlock α o.size) 0 (o.slots.take o.size), o.size⟩

/-- Move construction: steal the buffer (`RawMemory` move construction)
and `std::exchange(other.size_, 0)`.  Returns `(new object, other after)`. -/
def Vec.moveCtor (o : Vec α) : Vec α × Vec α :=
  (⟨o.slots, o.size⟩, ⟨[], 0⟩)

/-- `Swap(other)`: O(1) exchange of buffer and size; returns
`(this after, other after)`. -/
def Vec.swap (a b : Vec α) : Vec α × Vec α := (b, a)

/-- Copy assignment `operator=(const Vector& rhs)`.  `self` models the
pointer test `this == &rhs` (value semantics has no object identity, so
the caller supplies it; a self call passes `rhs = this` and `self = true`). -/
def Vec.copyAssign (this rhs : Vec α) (self : Bool) : Vec α :=
  if self then this
  else if rhs.size > this.cap then
    -- Vector<T> tmp(rhs); Swap(tmp);
    Vec.copyCtor rhs
  else
    let src := rhs.slots.take rhs.size
    if rhs.size < this.size then
      -- copy_n(rhs, rhs.size, data_); destroy_n(data_ + rhs.size, size - rhs.size)
      ⟨destroyAt (writeAt this.slots 0 src) rhs.size (this.size - rhs.size), rhs.size⟩
    else
      -- copy_n(rhs, size, data_); uninitialized_copy_n(rhs + size, rhs.size - size, data_ + size)
      ⟨writeAt (writeAt this.slots 0 (src.take this.size)) this.size (src.drop this.size),
        rhs.size⟩

/-- Move assignment: `if (this != &rhs) Swap(rhs)`.  Returns
`(this after, rhs after)`. -/
def Vec.moveAssign (this rhs : Vec α) (self : Bool) : Vec α × Vec α :=
  if self then (this, rhs) else Vec.swap this rhs

/-- `Reserve(new_capacity)`: no-op if it does not exceed the capacity;
otherwise allocate exactly `n` slots, relocate the live range (move or
copy per `relocMode`), destroy the originals and adopt the new block. -/
def Vec.reserve (tr : Traits) (v : Vec α) (n : Nat) : Vec α :=
  if n ≤ v.cap then v
  else ⟨relocate (relocMode tr) (rawBlock α n) 0 (v.slots.take v.size), v.size⟩

/-- `Resize(new_size)`: shrinking destroys the trailing elements; growing
reserves and default-constructs the new tail (default value `d`). -/
def Vec.resize (tr : Traits) (d : α) (v : Vec α) (n : Nat) : Vec α :=
  if n < v.size then ⟨destroyAt v.slots n (v.size - n), n⟩
  else
    let w := v.reserve tr n
    ⟨writeAt w.slots w.size (List.replicate (n - w.size) (some d)), n⟩

/-- `EmplaceBack(args)` with the constructed value `x`.  On the growth
path the new capacity is `size == 0 ? 1 : size * 2`; the new element is
constructed at slot `size` of the new block, then the old live range is
relocated, the originals destroyed and the new block adopted. -/
def Vec.emplaceBack (tr : Traits) (v : Vec α) (x : α) : Vec α :=
  if v.size = v.cap then
    let newCap := if v.size = 0 then 1 else v.size * 2
    let nd := writeAt (rawBlock α newCap) v.size [some x]
    ⟨relocate (relocMode tr) nd 0 (v.slots.take v.size), v.size + 1⟩
  else
    ⟨writeAt v.slots v.size [some x], v.size + 1⟩

/-- `PushBack(value)` forwards to `EmplaceBack`. -/
def Vec.pushBack (tr : Traits) (v : Vec α) (x : α) : Vec α :=
  Vec.emplaceBack tr v x

/-- `PopBack()`: destroy the last live element, decrement size. -/
def Vec.popBack (v : Vec α) : Vec α :=
  ⟨destroyAt v.slots (v.size - 1) 1, v.size - 1⟩

/-- `Emplace(pos, args)` at index `i` with constructed value `x`; returns
the new state and the index of the inserted element.
* `pos == end()`: delegate to `EmplaceBack`.
* spare capacity: move-construct the old last element into the free tail
  slot, build the temporary, `move_backward` the range `[i, size-1)` one
  slot right, move-assign the temporary into slot `i`;
* no spare capacity: allocate the doubled block, construct the new element
  at its final index, relocate prefix `[0, i)` and suffix `[i, size)`
  around it, destroy the originals, adopt the block. -/
def Vec.emplace (tr : Traits) (v : Vec α) (i : Nat) (x : α) : Vec α × Nat :=
  if i = v.size then (Vec.emplaceBack tr v x, v.size)
  else if v.size ≠ v.cap then
    let s1 := writeAt v.slots v.size [v.slots.getD (v.size - 1) none]
    let s2 := writeAt s1 (i + 1) ((s1.drop i).take (v.size - 1 - i))
    let s3 := writeAt s2 i [some x]
    (⟨s3, v.size + 1⟩, i)
  else
    let newCap := if v.size = 0 then 1 else v.size * 2
    let nd := writeAt (rawBlock α newCap) i [some x]
    let nd2 := relocate (relocMode tr) nd 0 (v.slots.take i)
    let nd3 := relocate (relocMode tr) nd2 (i + 1) ((v.slots.take v.size).drop i)
    (⟨nd3, v.size + 1⟩, i)

/-- `Insert(pos, value)` forwards to `Emplace`. -/
def Vec.insert (tr : Traits) (v : Vec α) (i : Nat) (x : α) : Vec α × Nat :=
  Vec.emplace tr v i x

/-- `Erase(pos)` at index `i`: shift `(i, size)` left one slot
(move- or copy-assignment per `relocMode`), destroy the vacated last
slot, decrement size; returns the new state and the returned index. -/
def Vec.erase (tr : Traits) (v : Vec α) (i : Nat) : Vec α × Nat :=
  let tail := (v.slots.take v.size).drop (i + 1)
  let s1 := relocate (relocMode tr) v.slots i tail
  let s2 := destroyAt s1 (v.size - 1) 1
  (⟨s2, v.size - 1⟩, i)

/-! ### Canonical states and the container invariant -/

/-- The canonical well-formed state: live values `l` in slots
`[0, l.length)` followed by `pad` uninitialized slots. -/
def VecOf (l : List α) (pad : Nat) : Vec α :=
  ⟨l.map some ++ List.replicate pad none, l.length⟩

/-- Well-formedness: the state is some canonical state. -/
def Vec.WF (v : Vec α) : Prop := ∃ l pad, v = VecOf l pad

/-- The invariant as the specification states it: `size ≤ capacity`, and a
slot is a live object exactly when its index is below `size`. -/
def Vec.Inv (v : Vec α) : Prop :=
  v.size ≤ v.cap ∧ ∀ k, k < v.cap → (k < v.size ↔ (v.slots.getD k none).isSome)

/-! ### Derived operations -/

/-- Pushing `n` elements one by one into an initially empty array
(`PushBack(f 0); PushBack(f 1); ...`). -/
def Vec.pushN (tr : Traits) (f : Nat → α) : Nat → Vec α
  | 0 => Vec.empty α
  | n + 1 => Vec.pushBack tr (Vec.pushN tr f n) (f n)

/-- `PushBack(v[j])`: the argument is a reference into the vector's own
storage.  The value is read from the old block when the element is
constructed; in the source's growth path the construction
`new (new_data + size_) T(arg)` runs before any relocation or
destruction touches the old block, so the value read is the pre-call
value of slot `j`.  Reading a slot that holds no live object would be
undefined behaviour, modelled as `none`. -/
def Vec.pushBackRef (tr : Traits) (v : Vec α) (j : Nat) : Option (Vec α) :=
  match v.slots.getD j none with
  | none => none
  | some x => some (Vec.emplaceBack tr v x)

/-! ### The throwing-probe model -/

/-- `uninitialized_copy` of `n` elements of the probe type under copy
budget `fuel`: when `n ≤ fuel` every copy succeeds and `fuel - n` budget
remains; otherwise the copy constructor throws partway and the algorithm
destroys the elements it itself already constructed (net effect on the
destination range: nothing). -/
def copyRun (n fuel : Nat) : Option Nat := if n ≤ fuel then some (fuel - n) else none

/-- What a throwing growth-path call leaves behind: the vector as the
caller sees it afterwards, and the new block's slots at the moment its
`RawMemory` destructor deallocates it. -/
structure ThrowOut (α : Type) where
  vec : Vec α
  newBlock : List (Slot α)
deriving DecidableEq

/-- The copy-relocation growth path of `EmplaceBack` / `PushBack` for an
lvalue argument of the probe type (so the initial construction
`new (new_data + size_) T(arg)` is itself a copy).  Mirrors the source
order: construct the new element at slot `size_` of the new block, then
`uninitialized_copy_n` the old live range — with no try/catch around it.
On a throw, `uninitialized_copy_n` destroys only its own partial copies;
nothing destroys the element already constructed at slot `size_`, and
`~RawMemory` merely deallocates. -/
def Vec.pushBackGrowCopy (v : Vec α) (x : α) (fuel : Nat) :
    Except (ThrowOut α) (Vec α × Nat) :=
  let newCap := if v.size = 0 then 1 else v.size * 2
  let nd0 := rawBlock α newCap
  match copyRun 1 fuel with
  | none => .error ⟨v, nd0⟩
  | some fuel1 =>
    let nd1 := writeAt nd0 v.size [some x]
    match copyRun v.size fuel1 with
    | none => .error ⟨v, nd1⟩
    | some fuel2 => .ok (⟨writeAt nd1 0 (v.slots.take v.size), v.size + 1⟩, fuel2)

/-- The copy-relocation growth path of `Emplace` at an interior index `i`
(the construction at slot `i` of the new block is a copy for `Insert` of
an lvalue).  Both relocation halves are guarded: the first catch destroys
the constructed element (`destroy_at(res_it)`), the second destroys the
first `i + 1` slots (`destroy_n(new_data.GetAddress(), index_pos + 1)`);
`uninitialized_copy` always rolls back its own partial copies. -/
def Vec.emplaceGrowCopy (v : Vec α) (i : Nat) (x : α) (fuel : Nat) :
    Except (ThrowOut α) (Vec α × Nat × Nat) :=
  let newCap := if v.size = 0 then 1 else v.size * 2
  let nd0 := rawBlock α newCap
  match copyRun 1 fuel with
  | none => .error ⟨v, nd0⟩
  | some fuel1 =>
    let nd1 := writeAt nd0 i [some x]
    match copyRun i fuel1 with
    | none => .error ⟨v, destroyAt nd1 i 1⟩
    | some fuel2 =>
      let nd2 := writeAt nd1 0 (v.slots.take i)
      match copyRun (v.size - i) fuel2 with
      | none => .error ⟨v, destroyAt nd2 0 (i + 1)⟩
      | some fuel3 =>
        let nd3 := writeAt nd2 (i + 1) ((v.slots.take v.size).drop i)
        .ok (⟨nd3, v.size + 1⟩, i, fuel3)

/-- Copy construction of the probe type under budget `fuel` (the `Vector`
copy constructor): allocate exactly `other.size_` slots and
`uninitialized_copy_n` all live elements.  On a throw the partial copies
are destroyed by the algorithm and `~RawMemory` releases the block; the
source is untouched and nothing else was modified yet. -/
def Vec.copyCtorRun (o : Vec α) (fuel : Nat) : Except Unit (Vec α × Nat) :=
  match copyRun o.size fuel with
  | none => .error ()
  | some f => .ok (⟨writeAt (rawBlock α o.size) 0 (o.slots.take o.size), o.size⟩, f)

/-- The `rhs.size_ > data_.Capacity()` branch of copy assignment under the
probe budget: `Vector<T> tmp(rhs); Swap(tmp);`.  A throw happens inside
the copy construction of `tmp`, before `*this` is touched; the error
value carries `*this` as the call leaves it. -/
def Vec.copyAssignGrow (this rhs : Vec α) (fuel : Nat) : Except (Vec α) (Vec α × Nat) :=
  match Vec.copyCtorRun rhs fuel with
  | .error _ => .error this
  | .ok (tmp, f) => .ok ((Vec.swap this tmp).1, f)

/-! ### Toolkit lemmas about `writeAt` and canonical blocks -/

theorem writeAt_of_length_eq {u w xs : List (Slot α)} {n : Nat} (h : u.length = n) :
    writeAt (u ++ w) n xs = u ++ (xs ++ w.drop xs.length) := by
  unfold writeAt
  rw [List.take_left' h, ← h, List.drop_append, List.append_assoc]

theorem writeAt_nil (l : List (Slot α)) (i : Nat) : writeAt l i [] = l := by
  simp [writeAt]

theorem writeAt_zero (l xs : List (Slot α)) : writeAt l 0 xs = xs ++ l.drop xs.length := by
  simp [writeAt]

theorem length_map_some (l : List α) : (l.map some : List (Slot α)).length = l.length := by
  simp

@[simp] theorem VecOf_slots (l : List α) (pad : Nat) :
    (VecOf l pad).slots = l.map some ++ List.replicate pad none := rfl

@[simp] theorem VecOf_size (l : List α) (pad : Nat) : (VecOf l pad).size = l.length := rfl

@[simp] theorem VecOf_cap (l : List α) (pad : Nat) : (VecOf l pad).cap = l.length + pad := by
  simp [Vec.cap, VecOf]

@[simp] theorem VecOf_elems (l : List α) (pad : Nat) : (VecOf l pad).elems = l := by
  simp [Vec.elems, VecOf, List.take_left' (length_map_some l)]

theorem relocate_eq (mode : RelocMode) (dst : List (Slot α)) (i : Nat) (src : List (Slot α)) :
    relocate mode dst i src = writeAt dst i src := by
  cases mode <;> rfl

/-- The live prefix of a canonical block. -/
theorem VecOf_take (l : List α) (pad : Nat) :
    ((VecOf l pad).slots.take (VecOf l pad).size) = l.map some := by
  simp [List.take_left' (length_map_some l)]

theorem getD_at_length (u v : List (Slot α)) (d : Slot α) :
    (u ++ v).getD u.length d = v.getD 0 d := by
  rw [List.getD_append_right u v d u.length le_rfl, Nat.sub_self]

theorem take_map_some (l : List α) (w : List (Slot α)) :
    (l.map some ++ w).take l.length = l.map some :=
  List.take_left' (length_map_some l)

theorem drop_map_some (l : List α) (w : List (Slot α)) :
    (l.map some ++ w).drop l.length = w :=
  List.drop_left' (length_map_some l)

/-! ### Canonical forms of the operations -/

theorem mkVec_canon (d : α) (n : Nat) : Vec.mkVec d n = VecOf (List.replicate n d) 0 := by
  simp [Vec.mkVec, VecOf, writeAt_zero, rawBlock, List.map_replicate]

theorem copyCtor_canon (l : List α) (pad : Nat) :
    Vec.copyCtor (VecOf l pad) = VecOf l 0 := by
  simp [Vec.copyCtor, VecOf_take, writeAt_zero, rawBlock, VecOf]

theorem moveCtor_canon (l : List α) (pad : Nat) :
    Vec.moveCtor (VecOf l pad) = (VecOf l pad, VecOf [] 0) := by
  simp [Vec.moveCtor, VecOf]

theorem swap_canon (v w : Vec α) : Vec.swap v w = (w, v) := rfl

theorem moveAssign_not_self (v w : Vec α) : Vec.moveAssign v w false = (w, v) := rfl

theorem reserve_noop (tr : Traits) (l : List α) (pad n : Nat) (h : n ≤ l.length + pad) :
    Vec.reserve tr (VecOf l pad) n = VecOf l pad := by
  simp [Vec.reserve, h]

theorem reserve_grow (tr : Traits) (l : List α) (pad n : Nat) (h : l.length + pad < n) :
    Vec.reserve tr (VecOf l pad) n = VecOf l (n - l.length) := by
  have hn : ¬ n ≤ (VecOf l pad).cap := by rw [VecOf_cap]; omega
  unfold Vec.reserve
  rw [if_neg hn, relocate_eq, VecOf_take, writeAt_zero, VecOf_size]
  simp [VecOf, rawBlock, List.drop_replicate]

theorem emplaceBack_spare (tr : Traits) (l : List α) (pad : Nat) (x : α) :
    Vec.emplaceBack tr (VecOf l (pad + 1)) x = VecOf (l ++ [x]) pad := by
  have h : ¬ (VecOf l (pad + 1)).size = (VecOf l (pad + 1)).cap := by
    rw [VecOf_size, VecOf_cap]; omega
  unfold Vec.emplaceBack
  rw [if_neg h, VecOf_size, VecOf_slots]
  rw [show (List.map some l ++ List.replicate (pad + 1) none : List (Slot α))
        = List.map some l ++ (List.replicate (pad + 1) none) from rfl]
  rw [writeAt_of_length_eq (length_map_some l)]
  simp [VecOf, List.replicate_succ]

theorem emplaceBack_full (tr : Traits) (l : List α) (x : α) :
    Vec.emplaceBack tr (VecOf l 0) x
      = VecOf (l ++ [x]) ((if l.length = 0 then 1 else l.length * 2) - (l.length + 1)) := by
  have h : (VecOf l 0).size = (VecOf l 0).cap := by simp
  have hcap : l.length + 1 ≤ (if l.length = 0 then 1 else l.length * 2) := by
    by_cases h0 : l.length = 0
    · simp [h0]
    · rw [if_neg h0]; omega
  unfold Vec.emplaceBack
  rw [if_pos h]
  simp only [relocate_eq, VecOf_size, VecOf_slots, take_map_some]
  have h1 : writeAt (rawBlock α (if l.length = 0 then 1 else l.length * 2)) l.length [some x]
      = (List.replicate l.length (none : Slot α) ++ [some x])
          ++ List.replicate ((if l.length = 0 then 1 else l.length * 2) - (l.length + 1))
              none := by
    simp only [writeAt, rawBlock, List.take_replicate, List.drop_replicate]
    rw [Nat.min_eq_left (Nat.le_of_succ_le hcap)]
    simp [List.append_assoc]
  rw [h1, writeAt_zero]
  have h2 : (((List.replicate l.length (none : Slot α) ++ [some x])
      ++ List.replicate ((if l.length = 0 then 1 else l.length * 2) - (l.length + 1))
          none)).drop (l.map some).length
      = [some x] ++ List.replicate ((if l.length = 0 then 1 else l.length * 2)
          - (l.length + 1)) none := by
    rw [List.append_assoc, List.drop_append_eq_append_drop]
    simp [length_map_some]
  rw [h2, VecOf]
  simp

theorem emplaceBack_size (tr : Traits) (v : Vec α) (x : α) :
    (Vec.emplaceBack tr v x).size = v.size + 1 := by
  unfold Vec.emplaceBack
  split <;> rfl

theorem copyAssign_self (v : Vec α) : Vec.copyAssign v v true = v := rfl

theorem copyAssign_grow (l l' : List α) (pad pad' : Nat) (h : l.length + pad < l'.length) :
    Vec.copyAssign (VecOf l pad) (VecOf l' pad') false = VecOf l' 0 := by
  have hgt : (VecOf l' pad').size > (VecOf l pad).cap := by
    rw [VecOf_size, VecOf_cap]; omega
  unfold Vec.copyAssign
  rw [if_neg (by simp), if_pos hgt, copyCtor_canon]

theorem copyAssign_shrink (l l' : List α) (pad pad' : Nat) (h : l'.length < l.length) :
    Vec.copyAssign (VecOf l pad) (VecOf l' pad') false
      = VecOf l' (l.length - l'.length + pad) := by
  have hng : ¬ (VecOf l' pad').size > (VecOf l pad).cap := by
    rw [VecOf_size, VecOf_cap]; omega
  have hlt : (VecOf l' pad').size < (VecOf l pad).size := by
    rw [VecOf_size, VecOf_size]; omega
  unfold Vec.copyAssign
  rw [if_neg (by simp), if_neg hng]
  simp only [VecOf_size, VecOf_slots, take_map_some]
  rw [if_pos h]
  have hsplit : (l.map some : List (Slot α)) ++ List.replicate pad none
      = (l.take l'.length).map some
          ++ ((l.drop l'.length).map some ++ List.replicate pad none) := by
    rw [← List.append_assoc, ← List.map_append, List.take_append_drop]
  rw [writeAt_zero, length_map_some, hsplit]
  have hlen : ((l.take l'.length).map some : List (Slot α)).length = l'.length := by
    simp [List.length_take, Nat.min_eq_left (Nat.le_of_lt h)]
  rw [List.drop_left' hlen, destroyAt, writeAt_of_length_eq (length_map_some l'),
    List.length_replicate,
    List.drop_left' (by simp :
      ((l.drop l'.length).map some : List (Slot α)).length = l.length - l'.length)]
  rw [VecOf, ← List.replicate_add]

theorem copyAssign_fits (l l' : List α) (pad pad' : Nat) (h1 : l.length ≤ l'.length)
    (h2 : l'.length ≤ l.length + pad) :
    Vec.copyAssign (VecOf l pad) (VecOf l' pad') false
      = VecOf l' (l.length + pad - l'.length) := by
  have hng : ¬ (VecOf l' pad').size > (VecOf l pad).cap := by
    rw [VecOf_size, VecOf_cap]; omega
  have hnlt : ¬ (VecOf l' pad').size < (VecOf l pad).size := by
    rw [VecOf_size, VecOf_size]; omega
  unfold Vec.copyAssign
  rw [if_neg (by simp), if_neg hng]
  simp only [VecOf_size, VecOf_slots, take_map_some]
  rw [if_neg (by omega : ¬ l'.length < l.length)]
  have hlen : ((l'.take l.length).map some : List (Slot α)).length = l.length := by
    simp [List.length_take, Nat.min_eq_left h1]
  rw [← List.map_take, ← List.map_drop, writeAt_zero, hlen, drop_map_some l]
  rw [writeAt_of_length_eq hlen]
  rw [show ((l'.drop l.length).map some : List (Slot α)).length = l'.length - l.length by simp]
  rw [List.drop_replicate, ← List.append_assoc, ← List.map_append, List.take_append_drop]
  rw [VecOf]
  have hp : pad - (l'.length - l.length) = l.length + pad - l'.length := by omega
  rw [hp]

theorem moveAssign_self (v w : Vec α) : Vec.moveAssign v w true = (v, w) := rfl

theorem resize_shrink (tr : Traits) (d : α) (l : List α) (pad n : Nat) (h : n < l.length) :
    Vec.resize tr d (VecOf l pad) n = VecOf (l.take n) (l.length - n + pad) := by
  have hn : n < (VecOf l pad).size := by rw [VecOf_size]; omega
  unfold Vec.resize
  rw [if_pos hn]
  simp only [VecOf_size, VecOf_slots]
  have hsplit : (l.map some : List (Slot α)) ++ List.replicate pad none
      = (l.take n).map some ++ ((l.drop n).map some ++ List.replicate pad none) := by
    rw [← List.append_assoc, ← List.map_append, List.take_append_drop]
  have hlen : ((l.take n).map some : List (Slot α)).length = n := by
    simp [List.length_take, Nat.min_eq_left (Nat.le_of_lt h)]
  rw [hsplit, destroyAt, writeAt_of_length_eq hlen, List.length_replicate,
    List.drop_left' (by simp :
      ((l.drop n).map some : List (Slot α)).length = l.length - n)]
  rw [VecOf, ← List.replicate_add]
  congr 2
  simp [List.length_take, Nat.min_eq_left (Nat.le_of_lt h)]

theorem resize_grow_within (tr : Traits) (d : α) (l : List α) (pad n : Nat)
    (h1 : l.length ≤ n) (h2 : n ≤ l.length + pad) :
    Vec.resize tr d (VecOf l pad) n
      = VecOf (l ++ List.replicate (n - l.length) d) (l.length + pad - n) := by
  have hn : ¬ n < (VecOf l pad).size := by rw [VecOf_size]; omega
  unfold Vec.resize
  rw [if_neg hn, reserve_noop tr l pad n (by omega)]
  simp only [VecOf_size, VecOf_slots]
  rw [writeAt_of_length_eq (length_map_some l), List.length_replicate, List.drop_replicate]
  rw [VecOf, List.map_append, List.map_replicate, List.append_assoc]
  have hp : pad - (n - l.length) = l.length + pad - n := by omega
  rw [hp]
  have hsize : (l ++ List.replicate (n - l.length) d).length = n := by
    simp; omega
  rw [hsize]

theorem resize_grow_realloc (tr : Traits) (d : α) (l : List α) (pad n : Nat)
    (h : l.length + pad < n) :
    Vec.resize tr d (VecOf l pad) n = VecOf (l ++ List.replicate (n - l.length) d) 0 := by
  have hn : ¬ n < (VecOf l pad).size := by rw [VecOf_size]; omega
  unfold Vec.resize
  rw [if_neg hn, reserve_grow tr l pad n h]
  simp only [VecOf_size, VecOf_slots]
  rw [writeAt_of_length_eq (length_map_some l), List.length_replicate, List.drop_replicate,
    Nat.sub_self]
  rw [VecOf, List.map_append, List.map_replicate, List.append_assoc]
  have hsize : (l ++ List.replicate (n - l.length) d).length = n := by
    simp; omega
  rw [hsize]

theorem popBack_canon (l : List α) (y : α) (pad : Nat) :
    Vec.popBack (VecOf (l ++ [y]) pad) = VecOf l (pad + 1) := by
  simp only [Vec.popBack, destroyAt, VecOf_slots, VecOf_size, List.length_append,
    List.length_singleton, Nat.add_sub_cancel, List.map_append, List.append_assoc,
    List.replicate_one]
  rw [writeAt_of_length_eq (length_map_some l)]
  simp [VecOf, List.replicate_succ]

theorem erase_at_end (tr : Traits) (a : List α) (y : α) (pad : Nat) :
    Vec.erase tr (VecOf (a ++ [y]) pad) a.length = (VecOf a (pad + 1), a.length) := by
  unfold Vec.erase
  simp only [VecOf_size, VecOf_slots, take_map_some, relocate_eq]
  rw [List.drop_eq_nil_of_le (by simp), writeAt_nil, destroyAt]
  have hS : ((a ++ [y]).map some : List (Slot α)) ++ List.replicate pad none
      = a.map some ++ ([some y] ++ List.replicate pad none) := by
    simp
  have hidx : (a ++ [y]).length - 1 = a.length := by simp
  rw [hS, hidx, writeAt_of_length_eq (length_map_some a)]
  simp [VecOf, List.replicate_succ]

theorem erase_mid (tr : Traits) (a c : List α) (z y : α) (pad : Nat) :
    Vec.erase tr (VecOf (a ++ z :: (c ++ [y])) pad) a.length
      = (VecOf (a ++ (c ++ [y])) (pad + 1), a.length) := by
  unfold Vec.erase
  simp only [VecOf_size, VecOf_slots, take_map_some, relocate_eq]
  have htail : ((a ++ z :: (c ++ [y])).map some : List (Slot α)).drop (a.length + 1)
      = (c ++ [y]).map some := by
    have hgrp : ((a ++ z :: (c ++ [y])).map some : List (Slot α))
        = ((a ++ [z]).map some) ++ (c ++ [y]).map some := by simp
    rw [hgrp, List.drop_left' (by simp)]
  rw [htail]
  have hS : ((a ++ z :: (c ++ [y])).map some : List (Slot α)) ++ List.replicate pad none
      = a.map some ++ ((([some z] ++ c.map some)
          ++ ([some y] ++ List.replicate pad none))) := by
    simp
  rw [hS, writeAt_of_length_eq (length_map_some a)]
  rw [List.drop_left' (by simp :
    (([some z] ++ c.map some : List (Slot α))).length = ((c ++ [y]).map some
      : List (Slot α)).length)]
  rw [destroyAt]
  have hre : (a.map some : List (Slot α)) ++ ((c ++ [y]).map some
        ++ ([some y] ++ List.replicate pad none))
      = ((a ++ (c ++ [y])).map some) ++ ([some y] ++ List.replicate pad none) := by
    simp
  have hidx2 : (a ++ z :: (c ++ [y])).length - 1 = ((a ++ (c ++ [y])).map some
      : List (Slot α)).length := by
    simp
  rw [hre, hidx2, writeAt_of_length_eq rfl]
  simp [VecOf, List.replicate_succ]

theorem emplace_at_end (tr : Traits) (l : List α) (pad : Nat) (x : α) :
    Vec.emplace tr (VecOf l pad) l.length x
      = (Vec.emplaceBack tr (VecOf l pad) x, l.length) := by
  unfold Vec.emplace
  rw [if_pos (by simp : l.length = (VecOf l pad).size), VecOf_size]

theorem emplace_mid_spare_cat (tr : Traits) (a c : List α) (y x : α) (pad : Nat) :
    Vec.emplace tr (VecOf (a ++ (c ++ [y])) (pad + 1)) a.length x
      = (VecOf (a ++ x :: (c ++ [y])) pad, a.length) := by
  have hne : ¬ a.length = (VecOf (a ++ (c ++ [y])) (pad + 1)).size := by simp
  have hcap : (VecOf (a ++ (c ++ [y])) (pad + 1)).size
      ≠ (VecOf (a ++ (c ++ [y])) (pad + 1)).cap := by simp
  unfold Vec.emplace
  rw [if_neg hne, if_pos hcap]
  dsimp only [VecOf_size, VecOf_slots]
  have hget : ((a ++ (c ++ [y])).map some ++ List.replicate (pad + 1) (none : Slot α)).getD
      ((a ++ (c ++ [y])).length - 1) none = some y := by
    have hgrp : ((a ++ (c ++ [y])).map some : List (Slot α))
          ++ List.replicate (pad + 1) none
        = ((a ++ c).map some) ++ ([some y] ++ List.replicate (pad + 1) none) := by simp
    have hidx : (a ++ (c ++ [y])).length - 1 = ((a ++ c).map some : List (Slot α)).length := by
      simp
    rw [hgrp, hidx, getD_at_length]
    rfl
  rw [hget]
  have hs1 : writeAt ((a ++ (c ++ [y])).map some ++ List.replicate (pad + 1) none)
        (a ++ (c ++ [y])).length [some y]
      = (a ++ (c ++ [y])).map some ++ ([some y] ++ List.replicate pad none) := by
    rw [writeAt_of_length_eq (length_map_some (a ++ (c ++ [y])))]
    simp
  rw [hs1]
  have hxs : List.take ((a ++ (c ++ [y])).length - 1 - a.length)
        (List.drop a.length
          ((a ++ (c ++ [y])).map some ++ ([some y] ++ List.replicate pad none)))
      = (List.map some c : List (Slot α)) := by
    have h1 : ((a ++ (c ++ [y])).map some : List (Slot α))
          ++ ([some y] ++ List.replicate pad none)
        = a.map some ++ ((c ++ [y]).map some ++ ([some y] ++ List.replicate pad none)) := by
      simp
    have h2 : (a ++ (c ++ [y])).length - 1 - a.length = c.length := by simp
    have h3 : ((c ++ [y]).map some : List (Slot α)) ++ ([some y] ++ List.replicate pad none)
        = c.map some ++ ([some y] ++ ([some y] ++ List.replicate pad none)) := by simp
    rw [h1, List.drop_left' (length_map_some a), h2, h3, take_map_some]
  rw [hxs]
  rcases c with _ | ⟨c₀, c'⟩
  · rw [show (List.map some ([] : List α) : List (Slot α)) = [] from rfl, writeAt_nil]
    have h4 : ((a ++ ([] ++ [y])).map some : List (Slot α))
          ++ ([some y] ++ List.replicate pad none)
        = a.map some ++ ([some y] ++ ([some y] ++ List.replicate pad none)) := by simp
    rw [h4, writeAt_of_length_eq (length_map_some a)]
    simp [VecOf, Prod.ext_iff]
  · have h5 : ((a ++ (c₀ :: c' ++ [y])).map some : List (Slot α))
          ++ ([some y] ++ List.replicate pad none)
        = (a.map some ++ [some c₀])
          ++ ((c'.map some ++ [some y]) ++ ([some y] ++ List.replicate pad none)) := by
      simp
    have h6 : ((a.map some ++ [some c₀]) : List (Slot α)).length = a.length + 1 := by simp
    rw [h5, writeAt_of_length_eq h6]
    rw [show ((List.map some (c₀ :: c') : List (Slot α))).length = c'.length + 1 by simp]
    rw [List.drop_left'
      (by simp : ((c'.map some ++ [some y]) : List (Slot α)).length = c'.length + 1)]
    have h8 : ((a.map some ++ [some c₀]) : List (Slot α))
          ++ (List.map some (c₀ :: c') ++ ([some y] ++ List.replicate pad none))
        = a.map some ++ ([some c₀]
          ++ (List.map some (c₀ :: c') ++ ([some y] ++ List.replicate pad none))) := by
      simp
    rw [h8, writeAt_of_length_eq (length_map_some a)]
    simp [VecOf, Prod.ext_iff]
    omega

theorem emplace_mid_spare (tr : Traits) (a b : List α) (z x : α) (pad : Nat) :
    Vec.emplace tr (VecOf (a ++ z :: b) (pad + 1)) a.length x
      = (VecOf (a ++ x :: z :: b) pad, a.length) := by
  rcases List.eq_nil_or_concat (z :: b) with h | ⟨c, y, h⟩
  · exact absurd h (List.cons_ne_nil z b)
  · rw [h]
    simpa [List.concat_eq_append] using emplace_mid_spare_cat tr a c y x pad

theorem emplace_mid_grow (tr : Traits) (a b : List α) (z x : α) :
    Vec.emplace tr (VecOf (a ++ z :: b) 0) a.length x
      = (VecOf (a ++ x :: z :: b) ((a ++ z :: b).length - 1), a.length) := by
  have hne : ¬ a.length = (VecOf (a ++ z :: b) 0).size := by simp
  have hcap : ¬ ((VecOf (a ++ z :: b) 0).size ≠ (VecOf (a ++ z :: b) 0).cap) := by simp
  unfold Vec.emplace
  rw [if_neg hne, if_neg hcap]
  dsimp only [VecOf_size, VecOf_slots]
  simp only [relocate_eq, List.replicate_zero, List.append_nil]
  rw [if_neg (by simp : ¬ (a ++ z :: b).length = 0)]
  have hcap2 : a.length + 1 ≤ (a ++ z :: b).length * 2 := by simp; omega
  have h1 : writeAt (rawBlock α ((a ++ z :: b).length * 2)) a.length [some x]
      = List.replicate a.length (none : Slot α)
          ++ ([some x] ++ List.replicate ((a ++ z :: b).length * 2 - (a.length + 1)) none) := by
    simp only [writeAt, rawBlock, List.take_replicate, List.drop_replicate]
    rw [Nat.min_eq_left (Nat.le_of_succ_le hcap2)]
    simp [List.append_assoc]
  rw [h1]
  have h2 : ((a ++ z :: b).map some : List (Slot α)).take a.length = a.map some := by
    have : ((a ++ z :: b).map some : List (Slot α)) = a.map some ++ (z :: b).map some := by
      simp
    rw [this, take_map_some]
  rw [h2, writeAt_zero, length_map_some,
    List.drop_left' (by simp : (List.replicate a.length (none : Slot α)).length = a.length)]
  have h3 : ((a ++ z :: b).map some : List (Slot α)).take (a ++ z :: b).length
      = a.map some ++ (z :: b).map some := by
    rw [List.take_of_length_le (by simp)]
    simp
  rw [h3, List.drop_left' (length_map_some a)]
  have h4 : (a.map some : List (Slot α))
        ++ ([some x] ++ List.replicate ((a ++ z :: b).length * 2 - (a.length + 1)) none)
      = (a.map some ++ [some x])
        ++ List.replicate ((a ++ z :: b).length * 2 - (a.length + 1)) none := by
    simp
  rw [h4, writeAt_of_length_eq (by simp : ((a.map some ++ [some x]) : List (Slot α)).length
    = a.length + 1)]
  rw [show ((z :: b).map some : List (Slot α)).length = b.length + 1 by simp,
    List.drop_replicate]
  have h5 : (a ++ z :: b).length * 2 - (a.length + 1) - (b.length + 1)
      = (a ++ z :: b).length - 1 := by
    simp
    omega
  rw [h5]
  simp [VecOf, Prod.ext_iff]
  omega

/-- `Emplace` at a live index `a.length`, canonical decomposition, any pad. -/
theorem emplace_mid_canon (tr : Traits) (l a b : List α) (z x : α) (pad i : Nat)
    (hl : l = a ++ z :: b) (hi : i = a.length) :
    ∃ pad', Vec.emplace tr (VecOf l pad) i x = (VecOf (a ++ x :: z :: b) pad', i) := by
  subst hl
  subst hi
  cases pad with
  | zero => exact ⟨(a ++ z :: b).length - 1, emplace_mid_grow tr a b z x⟩
  | succ p => exact ⟨p, emplace_mid_spare tr a b z x p⟩

/-- `Emplace` at the end position, any pad. -/
theorem emplace_end_canon (tr : Traits) (l : List α) (pad : Nat) (x : α) :
    ∃ pad', Vec.emplace tr (VecOf l pad) l.length x = (VecOf (l ++ [x]) pad', l.length) := by
  cases pad with
  | zero =>
    refine ⟨(if l.length = 0 then 1 else l.length * 2) - (l.length + 1), ?_⟩
    rw [emplace_at_end, emplaceBack_full]
  | succ p =>
    refine ⟨p, ?_⟩
    rw [emplace_at_end, emplaceBack_spare]

/-- `Erase` at any live index, in canonical decomposition: erasing the
element `z` at index `a.length` shifts the suffix left and frees one slot. -/
theorem erase_canon (tr : Traits) (a b : List α) (z : α) (pad : Nat) :
    Vec.erase tr (VecOf (a ++ z :: b) pad) a.length = (VecOf (a ++ b) (pad + 1), a.length) := by
  rcases List.eq_nil_or_concat b with rfl | ⟨c, y, rfl⟩
  · simpa using erase_at_end tr a z pad
  · simpa [List.concat_eq_append] using erase_mid tr a c z y pad

/-! ### The canonical form is exactly the specification invariant -/

theorem getD_replicate_none (n m : Nat) :
    (List.replicate n (none : Slot α)).getD m none = none := by
  rcases Nat.lt_or_ge m n with h | h
  · rw [List.getD_eq_getElem _ _ (by simpa using h)]
    simp
  · rw [List.getD_eq_default _ _ (by simpa using h)]

theorem inv_VecOf (l : List α) (pad : Nat) : Vec.Inv (VecOf l pad) := by
  constructor
  · simp
  · intro k hk
    rcases Nat.lt_or_ge k l.length with h | h
    · rw [VecOf_slots, List.getD_append _ _ _ _ (by simpa using h)]
      rw [List.getD_eq_getElem _ _ (by simpa using h)]
      simp [h]
    · rw [VecOf_slots, List.getD_append_right _ _ _ _ (by simpa using h)]
      rw [show (l.map some : List (Slot α)).length = l.length by simp, getD_replicate_none]
      simp
      omega

theorem slots_of_inv : ∀ (s : List (Slot α)) (sz : Nat), sz ≤ s.length →
    (∀ k, k < s.length → (k < sz ↔ (s.getD k none).isSome)) →
    ∃ (l : List α) (pad : Nat), l.length = sz ∧ s = l.map some ++ List.replicate pad none := by
  intro s
  induction s with
  | nil =>
    intro sz hsz _
    have hz : sz = 0 := by simpa using hsz
    exact ⟨[], 0, by simp [hz], by simp⟩
  | cons a t ih =>
    intro sz hsz hk
    cases sz with
    | zero =>
      have ha : a = none := by
        have h0 := hk 0 (by simp)
        simpa using h0
      obtain ⟨l, pad, hl, ht⟩ := ih 0 (Nat.zero_le _) (by
        intro k hkt
        have := hk (k + 1) (by simpa using Nat.succ_lt_succ hkt)
        simpa using this)
      have hlnil : l = [] := List.length_eq_zero.mp hl
      subst hlnil
      refine ⟨[], pad + 1, rfl, ?_⟩
      simp only [List.map_nil, List.nil_append] at ht ⊢
      rw [ha, ht, List.replicate_succ]
    | succ m =>
      have ha : a.isSome := by
        have h0 := hk 0 (by simp)
        simpa using h0.mp (Nat.succ_pos m)
      obtain ⟨v, hv⟩ := Option.isSome_iff_exists.mp ha
      have hsz' : m ≤ t.length := by simp at hsz; omega
      obtain ⟨l, pad, hl, ht⟩ := ih m hsz' (by
        intro k hkt
        have := hk (k + 1) (by simpa using Nat.succ_lt_succ hkt)
        simpa [Nat.succ_lt_succ_iff] using this)
      refine ⟨v :: l, pad, by simpa using hl, ?_⟩
      rw [hv, ht]
      simp

/-- The canonical-state description and the specification's stated
invariant agree. -/
theorem WF_iff_Inv (v : Vec α) : Vec.WF v ↔ Vec.Inv v := by
  constructor
  · rintro ⟨l, pad, rfl⟩
    exact inv_VecOf l pad
  · rintro ⟨hle, hslots⟩
    obtain ⟨l, pad, hl, hs⟩ := slots_of_inv v.slots v.size hle hslots
    refine ⟨l, pad, ?_⟩
    cases v with
    | mk s sz =>
      simp only [VecOf]
      simp only at hs hl
      rw [hs, hl]

/-! ### Supporting facts about the growth-path error behaviour -/

/-- Any throwing run of the `EmplaceBack` growth path leaves the vector
itself untouched (no size change, no block adoption). -/
theorem pushBackGrowCopy_vec_unchanged (v : Vec α) (x : α) (fuel : Nat) (out : ThrowOut α)
    (h : Vec.pushBackGrowCopy v x fuel = .error out) : out.vec = v := by
  unfold Vec.pushBackGrowCopy at h
  rcases h1 : copyRun 1 fuel with _ | f1
  · simp only [h1] at h
    cases h
    rfl
  · simp only [h1] at h
    rcases h2 : copyRun v.size f1 with _ | f2
    · simp only [h2] at h
      cases h
      rfl
    · simp only [h2] at h
      simp at h

theorem pushBackGrowCopy_vec_unchanged_checked :
    Vec.pushBackGrowCopy (VecOf [5] 0) 5 1
      = .error ⟨VecOf [5] 0, [none, some 5]⟩ := rfl

theorem take_le_map_some (l : List α) (w : List (Slot α)) (i : Nat) (h : i ≤ l.length) :
    (l.map some ++ w).take i = (l.take i).map some := by
  rw [List.take_append_eq_append_take]
  have h0 : i - (l.map some : List (Slot α)).length = 0 := by simp; omega
  rw [h0, List.take_zero, List.append_nil, ← List.map_take]

theorem destroy_constructed_slot (c i : Nat) (x : α) (h : i + 1 ≤ c) :
    destroyAt (writeAt (rawBlock α c) i [some x]) i 1 = rawBlock α c := by
  have h1 : writeAt (rawBlock α c) i [some x]
      = List.replicate i (none : Slot α)
          ++ ([some x] ++ List.replicate (c - (i + 1)) none) := by
    simp only [writeAt, rawBlock, List.take_replicate, List.drop_replicate]
    rw [Nat.min_eq_left (by omega)]
    simp [List.append_assoc]
  rw [h1, destroyAt, writeAt_of_length_eq (List.length_replicate i none)]
  rw [show (List.replicate 1 (none : Slot α)).length = 1 by simp]
  rw [show ([some x] ++ List.replicate (c - (i + 1)) (none : Slot α)).drop 1
    = List.replicate (c - (i + 1)) none by simp]
  rw [← List.replicate_add, ← List.replicate_add, rawBlock]
  congr 1
  omega

theorem destroy_prefix_and_slot (c i : Nat) (x : α) (u : List (Slot α))
    (hu : u.length = i) (h : i + 1 ≤ c) :
    destroyAt (writeAt (writeAt (rawBlock α c) i [some x]) 0 u) 0 (i + 1) = rawBlock α c := by
  have h1 : writeAt (rawBlock α c) i [some x]
      = List.replicate i (none : Slot α)
          ++ ([some x] ++ List.replicate (c - (i + 1)) none) := by
    simp only [writeAt, rawBlock, List.take_replicate, List.drop_replicate]
    rw [Nat.min_eq_left (by omega)]
    simp [List.append_assoc]
  rw [h1, writeAt_zero, hu,
    List.drop_left' (List.length_replicate i (none : Slot α))]
  rw [destroyAt, writeAt_zero]
  have h2 : (u ++ ([some x] ++ List.replicate (c - (i + 1)) (none : Slot α))).drop
      (List.replicate (i + 1) (none : Slot α)).length
      = List.replicate (c - (i + 1)) none := by
    rw [List.length_replicate,
      show u ++ ([some x] ++ List.replicate (c - (i + 1)) (none : Slot α))
        = (u ++ [some x]) ++ List.replicate (c - (i + 1)) none by simp]
    exact List.drop_left' (by simp [hu])
  rw [h2, ← List.replicate_add, rawBlock]
  congr 1
  omega

/-- The interior growth path of `Emplace`, by contrast with `EmplaceBack`,
destroys everything it already placed in the new block before the error
propagates (its two catch handlers plus the rollback inside
`uninitialized_copy`), and leaves the vector untouched. -/
theorem emplaceGrowCopy_cleanup (l : List α) (pad i : Nat) (x : α) (fuel : Nat)
    (h : i ≤ l.length) (out : ThrowOut α)
    (he : Vec.emplaceGrowCopy (VecOf l pad) i x fuel = .error out) :
    out.vec = VecOf l pad
    ∧ out.newBlock = List.replicate out.newBlock.length none := by
  have hc1 : i + 1 ≤ (if (VecOf l pad).size = 0 then 1 else (VecOf l pad).size * 2) := by
    rw [VecOf_size]
    rcases Nat.eq_zero_or_pos l.length with h0 | h0
    · rw [h0, if_pos rfl]
      omega
    · rw [if_neg (by omega)]
      omega
  unfold Vec.emplaceGrowCopy at he
  rcases h1 : copyRun 1 fuel with _ | f1
  · simp only [h1] at he
    cases he
    exact ⟨rfl, by simp [rawBlock]⟩
  · simp only [h1] at he
    rcases h2 : copyRun i f1 with _ | f2
    · simp only [h2] at he
      cases he
      refine ⟨rfl, ?_⟩
      rw [show (ThrowOut.mk (VecOf l pad)
          (destroyAt (writeAt (rawBlock α (if (VecOf l pad).size = 0 then 1
            else (VecOf l pad).size * 2)) i [some x]) i 1)).newBlock
        = destroyAt (writeAt (rawBlock α (if (VecOf l pad).size = 0 then 1
            else (VecOf l pad).size * 2)) i [some x]) i 1 from rfl]
      rw [destroy_constructed_slot _ i x hc1]
      simp [rawBlock]
    · simp only [h2] at he
      rcases h3 : copyRun ((VecOf l pad).size - i) f2 with _ | f3
      · simp only [h3] at he
        cases he
        refine ⟨rfl, ?_⟩
        have htake : (VecOf l pad).slots.take i = (l.take i).map some := by
          rw [VecOf_slots]
          exact take_le_map_some l _ i h
        rw [show (ThrowOut.mk (VecOf l pad)
            (destroyAt (writeAt (writeAt (rawBlock α (if (VecOf l pad).size = 0 then 1
              else (VecOf l pad).size * 2)) i [some x]) 0
              ((VecOf l pad).slots.take i)) 0 (i + 1))).newBlock
          = destroyAt (writeAt (writeAt (rawBlock α (if (VecOf l pad).size = 0 then 1
              else (VecOf l pad).size * 2)) i [some x]) 0
              ((VecOf l pad).slots.take i)) 0 (i + 1) from rfl]
        rw [htake, destroy_prefix_and_slot _ i x _ (by simp [List.length_take]; omega) hc1]
        simp [rawBlock]
      · simp only [h3] at he
        simp at he

/-- C1: the claim fails on the code.  Failing input: a full vector of one
element (size = capacity = 1) of a copying probe type; `PushBack` of an
lvalue with copy budget 1, so the construction of the new element at slot
1 of the new block succeeds and the relocation copy of element 0 throws.
The call propagates the error with the vector unchanged, but the new
block still holds the live element at slot 1 when it is deallocated:
`EmplaceBack` (unlike `Emplace`) has no handler destroying the already
constructed element, so not everything placed in the new block is
destroyed before the error propagates. -/
theorem C1_pushBack_grow_copy_leak :
    Vec.pushBackGrowCopy (VecOf [5] 0) 5 1
      = .error ⟨VecOf [5] 0, [none, some 5]⟩
    ∧ ([none, some 5] : List (Slot Nat)).getD 1 none = some 5 := by
  constructor
  · rfl
  · rfl

/-- C2: the claim fails on the code, and the code is at fault.  Failing
input: move-assigning `⟨block 2, capacity 3⟩` into `⟨block 1, capacity 2⟩`.
`operator=` deallocates block 1 and then swaps the members, so the source
is left holding the already-freed handle `block 1` with capacity 2 — not
the empty `(null, 0)` state — and its destructor will deallocate block 1
a second time.  Move construction, by contrast, conforms. -/
theorem C2_moveAssign_source_not_empty :
    (RawMemory.moveAssign ⟨some 1, 2⟩ ⟨some 2, 3⟩).2.1 = ⟨some 1, 2⟩
    ∧ (RawMemory.moveAssign ⟨some 1, 2⟩ ⟨some 2, 3⟩).2.2 = [some 1]
    ∧ ¬ ((RawMemory.moveAssign ⟨some 1, 2⟩ ⟨some 2, 3⟩).2.1.capacity = 0
        ∧ (RawMemory.moveAssign ⟨some 1, 2⟩ ⟨some 2, 3⟩).2.1.buffer = none)
    ∧ RawMemory.dtorFrees (RawMemory.moveAssign ⟨some 1, 2⟩ ⟨some 2, 3⟩).2.1 = some 1
    ∧ RawMemory.moveCtor ⟨some 2, 3⟩ = (⟨some 2, 3⟩, ⟨none, 0⟩) := by
  refine ⟨rfl, rfl, ?_, rfl, rfl⟩
  decide

/-- C5: during relocation, elements are moved exactly when the element
type's move construction is declared non-throwing or the type has no copy
constructor, and copied otherwise.  `relocMode` is the literal
transcription of the shared `if constexpr` condition on which `reserve`,
`emplaceBack`, `emplace` and `erase` all select their relocation
primitive (`relocate (relocMode tr)`). -/
theorem C5_reloc_rule (tr : Traits) :
    relocMode tr = RelocMode.move ↔ (tr.nothrowMove = true ∨ tr.hasCopy = false) := by
  cases tr with
  | mk nm hc => cases nm <;> cases hc <;> decide

/-- C3: copy assignment where the source's size exceeds the target's
capacity builds a complete temporary copy of the source and swaps it in:
on success the target holds exactly the source's element sequence; if any
element copy throws (budget exhausted before `rhs.size` copies), the
target is returned completely unmodified. -/
theorem C3_copyAssign_grow_strong (l l' : List α) (pad pad' fuel : Nat)
    (hgrow : (VecOf l pad).cap < (VecOf l' pad').size) :
    (l'.length ≤ fuel →
      Vec.copyAssignGrow (VecOf l pad) (VecOf l' pad') fuel
          = .ok (VecOf l' 0, fuel - l'.length)
        ∧ (VecOf l' 0).elems = l')
    ∧ (fuel < l'.length →
      Vec.copyAssignGrow (VecOf l pad) (VecOf l' pad') fuel = .error (VecOf l pad)) := by
  constructor
  · intro hle
    refine ⟨?_, by simp⟩
    have h1 : copyRun l'.length fuel = some (fuel - l'.length) := by
      simp [copyRun, hle]
    unfold Vec.copyAssignGrow Vec.copyCtorRun
    simp only [VecOf_size, VecOf_slots, take_map_some, h1]
    rw [writeAt_zero, length_map_some]
    simp only [rawBlock, List.drop_replicate, Nat.sub_self]
    rfl
  · intro hlt
    have h1 : copyRun l'.length fuel = none := by
      simp [copyRun]
      omega
    unfold Vec.copyAssignGrow Vec.copyCtorRun
    simp only [VecOf_size, h1]

/-- C4: `Reserve(n)` is a no-op when `n` is at most the capacity;
otherwise the capacity becomes exactly `n` while size and element
sequence are unchanged. -/
theorem C4_reserve (tr : Traits) (l : List α) (pad n : Nat) :
    (n ≤ (VecOf l pad).cap → Vec.reserve tr (VecOf l pad) n = VecOf l pad)
    ∧ ((VecOf l pad).cap < n →
        (Vec.reserve tr (VecOf l pad) n).cap = n
        ∧ (Vec.reserve tr (VecOf l pad) n).size = (VecOf l pad).size
        ∧ (Vec.reserve tr (VecOf l pad) n).elems = (VecOf l pad).elems) := by
  constructor
  · intro h
    exact reserve_noop tr l pad n (by simpa using h)
  · intro h
    have h' : l.length + pad < n := by simpa using h
    rw [reserve_grow tr l pad n h']
    refine ⟨?_, by simp, by simp⟩
    rw [VecOf_cap]
    omega

theorem C4_reserve_witness :
    Vec.reserve ⟨true, true⟩ (VecOf [0, 1, 3] 0) 2 = VecOf [0, 1, 3] 0
    ∧ (Vec.reserve ⟨true, true⟩ (VecOf [0, 1, 3] 0) 10).cap = 10
    ∧ (Vec.reserve ⟨true, true⟩ (VecOf [0, 1, 3] 0) 10).size
        = (VecOf ([0, 1, 3] : List Nat) 0).size
    ∧ (Vec.reserve ⟨true, true⟩ (VecOf [0, 1, 3] 0) 10).elems
        = (VecOf ([0, 1, 3] : List Nat) 0).elems := by
  refine ⟨(C4_reserve ⟨true, true⟩ [0, 1, 3] 0 2).1 (by decide), ?_⟩
  exact (C4_reserve ⟨true, true⟩ [0, 1, 3] 0 10).2 (by decide)

theorem C3_copyAssign_witness :
    Vec.copyAssignGrow (VecOf [1] 0) (VecOf [2, 3] 0) 5 = .ok (VecOf [2, 3] 0, 3)
    ∧ Vec.copyAssignGrow (VecOf [1] 0) (VecOf [2, 3] 0) 1 = .error (VecOf [1] 0) := by
  refine ⟨((C3_copyAssign_grow_strong [1] [2, 3] 0 0 5 (by decide)).1 (by decide)).1, ?_⟩
  exact (C3_copyAssign_grow_strong [1] [2, 3] 0 0 1 (by decide)).2 (by decide)

/-- C10: pushing a reference to one of the vector's own elements yields
the expected value: in the growth path the new element is constructed
from the still-intact old block before any relocation or destruction. -/
theorem C10_pushBack_self_alias (tr : Traits) (l : List α) (pad j : Nat) (h : j < l.length) :
    ∃ w : Vec α, Vec.pushBackRef tr (VecOf l pad) j = some w
      ∧ w.elems = l ++ [l.get ⟨j, h⟩] ∧ w.size = l.length + 1 := by
  have hget : (VecOf l pad).slots.getD j none = some (l.get ⟨j, h⟩) := by
    rw [VecOf_slots, List.getD_append _ _ _ _ (by simpa using h),
      List.getD_eq_getElem _ _ (by simpa using h)]
    simp
  unfold Vec.pushBackRef
  rw [hget]
  cases pad with
  | zero =>
    refine ⟨_, rfl, ?_, ?_⟩
    · rw [show Vec.emplaceBack tr (VecOf l 0) (l.get ⟨j, h⟩)
          = VecOf (l ++ [l.get ⟨j, h⟩])
              ((if l.length = 0 then 1 else l.length * 2) - (l.length + 1)) from
        emplaceBack_full tr l _]
      simp
    · rw [show Vec.emplaceBack tr (VecOf l 0) (l.get ⟨j, h⟩)
          = VecOf (l ++ [l.get ⟨j, h⟩])
              ((if l.length = 0 then 1 else l.length * 2) - (l.length + 1)) from
        emplaceBack_full tr l _]
      simp
  | succ p =>
    refine ⟨_, rfl, ?_, ?_⟩
    · rw [emplaceBack_spare tr l p]
      simp
    · rw [emplaceBack_spare tr l p]
      simp

theorem C10_witness :
    ∃ w : Vec Nat, Vec.pushBackRef ⟨true, true⟩ (VecOf [4, 9] 0) 0 = some w
      ∧ w.elems = [4, 9] ++ [([4, 9] : List Nat).get ⟨0, by decide⟩] ∧ w.size = 2 + 1 :=
  C10_pushBack_self_alias ⟨true, true⟩ [4, 9] 0 0 (by decide)

/-- The shape of a push sequence from empty: the state is canonical, the
live count equals the number of pushes, the slack is 0 exactly at the
start, and from the first push on the capacity is a power of two in
`[n, 2n)`. -/
theorem pushN_canon (tr : Traits) (f : Nat → α) : ∀ n : Nat,
    ∃ l pad, Vec.pushN tr f n = VecOf l pad ∧ l.length = n
      ∧ (n = 0 → pad = 0)
      ∧ (1 ≤ n → (∃ k, n + pad = 2 ^ k) ∧ n + pad < 2 * n) := by
  intro n
  induction n with
  | zero =>
    exact ⟨[], 0, rfl, rfl, fun _ => rfl, fun hc => absurd hc (by omega)⟩
  | succ n ih =>
    obtain ⟨l, pad, heq, hlen, h0, hge⟩ := ih
    have hstep : Vec.pushN tr f (n + 1) = Vec.emplaceBack tr (VecOf l pad) (f n) := by
      show Vec.pushBack tr (Vec.pushN tr f n) (f n) = _
      rw [heq]
      rfl
    cases pad with
    | zero =>
      refine ⟨l ++ [f n], (if l.length = 0 then 1 else l.length * 2) - (l.length + 1),
        ?_, by simp [hlen], fun hc => absurd hc n.succ_ne_zero, ?_⟩
      · rw [hstep, emplaceBack_full]
      · intro _
        rcases Nat.eq_zero_or_pos n with hn | hn
        · subst hn
          have hl0 : l.length = 0 := hlen
          rw [hl0]
          exact ⟨⟨0, by simp⟩, by simp⟩
        · obtain ⟨⟨k, hk⟩, hlt⟩ := hge hn
          rw [hlen, if_neg (by omega)]
          constructor
          · exact ⟨k + 1, by rw [pow_succ]; omega⟩
          · omega
    | succ p =>
      refine ⟨l ++ [f n], p, ?_, by simp [hlen],
        fun hc => absurd hc n.succ_ne_zero, ?_⟩
      · rw [hstep, emplaceBack_spare]
      · intro _
        have hn : 1 ≤ n := by
          rcases Nat.eq_zero_or_pos n with hn | hn
          · exact absurd (h0 hn) (by omega)
          · exact hn
        obtain ⟨⟨k, hk⟩, hlt⟩ := hge hn
        exact ⟨⟨k, by omega⟩, by omega⟩

/-- C6: pushing `n` elements from empty yields size `n`; a push that finds
`size == capacity` allocates exactly double the old capacity (1 from
empty); the capacity never shrinks and is always the power of two in
`[n, 2n)`, i.e. the sequence `1, 2, 4, 8, ...`. -/
theorem C6_pushN_growth (tr : Traits) (f : Nat → α) (n : Nat) :
    (Vec.pushN tr f n).size = n
    ∧ (Vec.pushN tr f n).cap ≤ (Vec.pushN tr f (n + 1)).cap
    ∧ ((Vec.pushN tr f n).size = (Vec.pushN tr f n).cap →
        (Vec.pushN tr f (n + 1)).cap = if n = 0 then 1 else n * 2)
    ∧ (n = 0 → (Vec.pushN tr f n).cap = 0)
    ∧ (1 ≤ n → ∃ k, (Vec.pushN tr f n).cap = 2 ^ k ∧ n ≤ 2 ^ k ∧ 2 ^ k < 2 * n) := by
  obtain ⟨l, pad, heq, hlen, h0, hge⟩ := pushN_canon tr f n
  have hstep : Vec.pushN tr f (n + 1) = Vec.emplaceBack tr (VecOf l pad) (f n) := by
    show Vec.pushBack tr (Vec.pushN tr f n) (f n) = _
    rw [heq]
    rfl
  refine ⟨by rw [heq, VecOf_size, hlen], ?_, ?_, ?_, ?_⟩
  · cases pad with
    | zero =>
      rw [heq, hstep, emplaceBack_full, VecOf_cap, VecOf_cap]
      rcases Nat.eq_zero_or_pos l.length with hl | hl
      · rw [if_pos hl]
        simp only [List.length_append, List.length_singleton]
        omega
      · rw [if_neg (by omega)]
        simp only [List.length_append, List.length_singleton]
        omega
    | succ p =>
      rw [heq, hstep, emplaceBack_spare, VecOf_cap, VecOf_cap]
      simp only [List.length_append, List.length_singleton]
      omega
  · intro hfull
    rw [heq, VecOf_size, VecOf_cap] at hfull
    have hpad : pad = 0 := by omega
    subst hpad
    rw [hstep, emplaceBack_full, VecOf_cap, hlen]
    rcases Nat.eq_zero_or_pos n with hn | hn
    · rw [if_pos hn]
      simp only [List.length_append, List.length_singleton]
      omega
    · rw [if_neg (by omega)]
      simp only [List.length_append, List.length_singleton]
      omega
  · intro hn
    rw [heq, VecOf_cap]
    have := h0 hn
    omega
  · intro hn
    obtain ⟨⟨k, hk⟩, hlt⟩ := hge hn
    refine ⟨k, ?_, by omega, by omega⟩
    rw [heq, VecOf_cap]
    omega

theorem C6_witness :
    (Vec.pushN ⟨true, true⟩ (fun k => k) 3).size = 3
    ∧ (Vec.pushN ⟨true, true⟩ (fun k => k) 3).cap ≤ (Vec.pushN ⟨true, true⟩ (fun k => k) 4).cap
    ∧ (Vec.pushN ⟨true, true⟩ (fun k => k) 5).cap = 8
    ∧ (Vec.pushN ⟨true, true⟩ (fun k => (k : Nat)) 0).cap = 0
    ∧ (∃ k, (Vec.pushN ⟨true, true⟩ (fun k => k) 3).cap = 2 ^ k ∧ 3 ≤ 2 ^ k ∧ 2 ^ k < 2 * 3) := by
  refine ⟨(C6_pushN_growth ⟨true, true⟩ (fun k => k) 3).1,
    (C6_pushN_growth ⟨true, true⟩ (fun k => k) 3).2.1, ?_,
    (C6_pushN_growth ⟨true, true⟩ (fun k => (k : Nat)) 0).2.2.2.1 rfl,
    (C6_pushN_growth ⟨true, true⟩ (fun k => k) 3).2.2.2.2 (by decide)⟩
  have hd := (C6_pushN_growth ⟨true, true⟩ (fun k => k) 4).2.2.1 (by decide)
  simpa using hd

/-- C7: inserting a value at any position `i ∈ [0, size]` and immediately
erasing at the returned position restores the original size and element
sequence. -/
theorem C7_insert_erase (tr : Traits) (l : List α) (pad i : Nat) (x : α) (h : i ≤ l.length) :
    (Vec.erase tr (Vec.insert tr (VecOf l pad) i x).1
        (Vec.insert tr (VecOf l pad) i x).2).1.elems = l
    ∧ (Vec.erase tr (Vec.insert tr (VecOf l pad) i x).1
        (Vec.insert tr (VecOf l pad) i x).2).1.size = l.length := by
  unfold Vec.insert
  rcases Nat.eq_or_lt_of_le h with heq | hlt
  · subst heq
    obtain ⟨pad', hp⟩ := emplace_end_canon tr l pad x
    rw [hp]
    have he := erase_canon tr l ([] : List α) x pad'
    rw [he]
    constructor
    · simp
    · simp
  · rcases hd : l.drop i with _ | ⟨z, b⟩
    · exfalso
      have : l.length ≤ i := by
        have := congrArg List.length hd
        simp at this
        omega
      omega
    · have hl : l = l.take i ++ z :: b := by rw [← hd, List.take_append_drop]
      have hi : i = (l.take i).length := by rw [List.length_take]; omega
      obtain ⟨pad', hp⟩ := emplace_mid_canon tr l (l.take i) b z x pad i hl hi
      rw [hp]
      have he := erase_canon tr (l.take i) (z :: b) x pad'
      rw [← hi] at he
      rw [he]
      constructor
      · simp [← hl]
      · simp [← hl]

theorem C7_witness :
    (Vec.erase ⟨true, true⟩ (Vec.insert ⟨true, true⟩ (VecOf [1, 2, 3] 0) 1 9).1
        (Vec.insert ⟨true, true⟩ (VecOf [1, 2, 3] 0) 1 9).2).1.elems = [1, 2, 3]
    ∧ (Vec.erase ⟨true, true⟩ (Vec.insert ⟨true, true⟩ (VecOf [1, 2, 3] 0) 1 9).1
        (Vec.insert ⟨true, true⟩ (VecOf [1, 2, 3] 0) 1 9).2).1.size
      = ([1, 2, 3] : List Nat).length :=
  C7_insert_erase ⟨true, true⟩ [1, 2, 3] 0 1 9 (by decide)

theorem WF_VecOf (l : List α) (pad : Nat) : Vec.WF (VecOf l pad) := ⟨l, pad, rfl⟩

/-- C8: every operation preserves the container invariant: `size ≤
capacity`, slots `[0, size)` hold live constructed elements and slots
`[size, capacity)` are uninitialized raw storage (and are never treated
as objects: the well-formedness predicate `WF` says the state is exactly
a live prefix followed by raw slots, and `WF` is equivalent to the
spec's pointwise invariant `Inv`). -/
theorem C8_ops_preserve_invariant (tr : Traits) (d x : α) (v w : Vec α) (n i : Nat) :
    (∀ u : Vec α, Vec.WF u ↔ Vec.Inv u)
    ∧ Vec.WF (Vec.empty α)
    ∧ Vec.WF (Vec.mkVec d n)
    ∧ (Vec.WF v → Vec.WF (Vec.copyCtor v))
    ∧ (Vec.WF v → Vec.WF (Vec.moveCtor v).1 ∧ Vec.WF (Vec.moveCtor v).2)
    ∧ (Vec.WF v → Vec.WF w → ∀ s : Bool, Vec.WF (Vec.copyAssign v w s))
    ∧ (Vec.WF v → Vec.WF w → ∀ s : Bool,
        Vec.WF (Vec.moveAssign v w s).1 ∧ Vec.WF (Vec.moveAssign v w s).2)
    ∧ (Vec.WF v → Vec.WF (Vec.reserve tr v n))
    ∧ (Vec.WF v → Vec.WF (Vec.resize tr d v n))
    ∧ (Vec.WF v → Vec.WF (Vec.emplaceBack tr v x) ∧ Vec.WF (Vec.pushBack tr v x))
    ∧ (Vec.WF v → 1 ≤ v.size → Vec.WF (Vec.popBack v))
    ∧ (Vec.WF v → i ≤ v.size →
        Vec.WF (Vec.emplace tr v i x).1 ∧ Vec.WF (Vec.insert tr v i x).1)
    ∧ (Vec.WF v → i < v.size → Vec.WF (Vec.erase tr v i).1)
    ∧ (Vec.WF v → Vec.WF w → Vec.WF (Vec.swap v w).1 ∧ Vec.WF (Vec.swap v w).2) := by
  refine ⟨WF_iff_Inv, ⟨[], 0, rfl⟩, ?_, ?_, ?_, ?_, ?_, ?_, ?_, ?_, ?_, ?_, ?_, ?_⟩
  · rw [mkVec_canon]
    exact WF_VecOf _ _
  · rintro ⟨l, pad, rfl⟩
    rw [copyCtor_canon]
    exact WF_VecOf _ _
  · rintro ⟨l, pad, rfl⟩
    rw [moveCtor_canon]
    exact ⟨WF_VecOf _ _, WF_VecOf _ _⟩
  · rintro ⟨l, pad, rfl⟩ ⟨l', pad', rfl⟩ s
    cases s with
    | true => exact WF_VecOf l pad
    | false =>
      by_cases h1 : l.length + pad < l'.length
      · rw [copyAssign_grow l l' pad pad' h1]
        exact WF_VecOf _ _
      · by_cases h2 : l'.length < l.length
        · rw [copyAssign_shrink l l' pad pad' h2]
          exact WF_VecOf _ _
        · rw [copyAssign_fits l l' pad pad' (by omega) (by omega)]
          exact WF_VecOf _ _
  · rintro ⟨l, pad, rfl⟩ ⟨l', pad', rfl⟩ s
    cases s with
    | true => exact ⟨WF_VecOf l pad, WF_VecOf l' pad'⟩
    | false => exact ⟨WF_VecOf l' pad', WF_VecOf l pad⟩
  · rintro ⟨l, pad, rfl⟩
    by_cases h : n ≤ l.length + pad
    · rw [reserve_noop tr l pad n h]
      exact WF_VecOf _ _
    · rw [reserve_grow tr l pad n (by omega)]
      exact WF_VecOf _ _
  · rintro ⟨l, pad, rfl⟩
    by_cases h : n < l.length
    · rw [resize_shrink tr d l pad n h]
      exact WF_VecOf _ _
    · by_cases h2 : n ≤ l.length + pad
      · rw [resize_grow_within tr d l pad n (by omega) h2]
        exact WF_VecOf _ _
      · rw [resize_grow_realloc tr d l pad n (by omega)]
        exact WF_VecOf _ _
  · rintro ⟨l, pad, rfl⟩
    have hwf : Vec.WF (Vec.emplaceBack tr (VecOf l pad) x) := by
      cases pad with
      | zero =>
        rw [emplaceBack_full]
        exact WF_VecOf _ _
      | succ p =>
        rw [emplaceBack_spare]
        exact WF_VecOf _ _
    exact ⟨hwf, hwf⟩
  · rintro ⟨l, pad, rfl⟩ hsz
    rcases List.eq_nil_or_concat l with rfl | ⟨l', y, rfl⟩
    · simp at hsz
    · rw [List.concat_eq_append, popBack_canon]
      exact WF_VecOf _ _
  · rintro ⟨l, pad, rfl⟩ hsz
    have hi : i ≤ l.length := by simpa using hsz
    have hwf : Vec.WF (Vec.emplace tr (VecOf l pad) i x).1 := by
      rcases Nat.eq_or_lt_of_le hi with heq | hlt
      · subst heq
        obtain ⟨pad', hp⟩ := emplace_end_canon tr l pad x
        rw [hp]
        exact WF_VecOf _ _
      · rcases hd : l.drop i with _ | ⟨z, b⟩
        · exfalso
          have := congrArg List.length hd
          simp at this
          omega
        · have hl : l = l.take i ++ z :: b := by rw [← hd, List.take_append_drop]
          have hi2 : i = (l.take i).length := by rw [List.length_take]; omega
          obtain ⟨pad', hp⟩ := emplace_mid_canon tr l (l.take i) b z x pad i hl hi2
          rw [hp]
          exact WF_VecOf _ _
    exact ⟨hwf, hwf⟩
  · rintro ⟨l, pad, rfl⟩ hsz
    have hi : i < l.length := by simpa using hsz
    rcases hd : l.drop i with _ | ⟨z, b⟩
    · exfalso
      have := congrArg List.length hd
      simp at this
      omega
    · have hl : l = l.take i ++ z :: b := by rw [← hd, List.take_append_drop]
      have hi2 : i = (l.take i).length := by rw [List.length_take]; omega
      have he := erase_canon tr (l.take i) b z pad
      rw [← hi2] at he
      rw [show VecOf l pad = VecOf (l.take i ++ z :: b) pad by rw [← hl], he]
      exact WF_VecOf _ _
  · rintro ⟨l, pad, rfl⟩ ⟨l', pad', rfl⟩
    exact ⟨WF_VecOf l' pad', WF_VecOf l pad⟩

theorem C8_witness :
    (Vec.WF (VecOf ([1, 2] : List Nat) 1) ↔ Vec.Inv (VecOf ([1, 2] : List Nat) 1))
    ∧ Vec.WF (Vec.empty Nat)
    ∧ Vec.WF (Vec.mkVec (0 : Nat) 4)
    ∧ Vec.WF (Vec.copyCtor (VecOf [1, 2] 1))
    ∧ Vec.WF (Vec.moveCtor (VecOf ([1, 2] : List Nat) 1)).1
    ∧ Vec.WF (Vec.moveCtor (VecOf ([1, 2] : List Nat) 1)).2
    ∧ Vec.WF (Vec.copyAssign (VecOf [1, 2] 1) (VecOf [3] 0) false)
    ∧ Vec.WF (Vec.moveAssign (VecOf ([1, 2] : List Nat) 1) (VecOf [3] 0) false).1
    ∧ Vec.WF (Vec.reserve ⟨true, true⟩ (VecOf [1, 2] 1) 4)
    ∧ Vec.WF (Vec.resize ⟨true, true⟩ 0 (VecOf [1, 2] 1) 4)
    ∧ Vec.WF (Vec.emplaceBack ⟨true, true⟩ (VecOf [1, 2] 1) 7)
    ∧ Vec.WF (Vec.popBack (VecOf [1, 2] 1))
    ∧ Vec.WF (Vec.emplace ⟨true, true⟩ (VecOf [1, 2] 1) 1 7).1
    ∧ Vec.WF (Vec.erase ⟨true, true⟩ (VecOf [1, 2] 1) 1).1
    ∧ Vec.WF (Vec.swap (VecOf ([1, 2] : List Nat) 1) (VecOf [3] 0)).1 := by
  obtain ⟨hA, hB, hC, hD, hE, hF, hG, hH, hI, hJ, hK, hL, hM, hN⟩ :=
    C8_ops_preserve_invariant (⟨true, true⟩ : Traits) (0 : Nat) 7
      (VecOf [1, 2] 1) (VecOf [3] 0) 4 1
  have hv : Vec.WF (VecOf ([1, 2] : List Nat) 1) := ⟨[1, 2], 1, rfl⟩
  have hw : Vec.WF (VecOf ([3] : List Nat) 0) := ⟨[3], 0, rfl⟩
  exact ⟨hA _, hB, hC, hD hv, (hE hv).1, (hE hv).2, hF hv hw false, (hG hv hw false).1,
    hH hv, hI hv, (hJ hv).1, hK hv (by decide), (hL hv (by decide)).1,
    hM hv (by decide), (hN hv hw).1⟩

/-- C9: both assignment operators detect self-assignment (`this == &rhs`)
and perform no mutation in that case. -/
theorem C9_self_assignment (v : Vec α) :
    Vec.copyAssign v v true = v ∧ Vec.moveAssign v v true = (v, v) :=
  ⟨rfl, rfl⟩

end AdvVec
